import Mathlib

/-
Verification of the EMA/SMA crossover backtest engine of the stocks-script
repository (canonical variant: simulate_strategy in
EMA-SMA-Strategy-Dashboard.py; near-identical copies live in
streamlit_strategy_dashboard.py and multiTickerBuySellSignal.py).

Modelling choices, each taken from the source:

* Prices and cash are modelled as exact rationals.  The Python source uses
  binary floats; none of the properties treated here is about float rounding,
  they are about the control flow and the exact cash/share arithmetic the
  spec describes ("at full unrounded precision").
* A pandas frame row carries Close, EMA20, SMA40.  EMA20 is total (ewm with
  adjust=False is seeded at the first price); SMA40 is undefined for the
  first 39 indices (rolling(40).mean() yields NaN there).  In the source the
  NaN never raises: float(nan) succeeds, and every comparison against NaN is
  False, so a bar with an undefined SMA can trigger neither branch.  The
  embedding carries the SMA as an Option and makes every comparison against
  none false (isAbove / isBelow), which is observationally the same.
* The trade-log dicts of the source apply round(., 2) to the Price and
  Portfolio Value cells and int(.) to Shares purely for table display
  (spec section 4.3: monetary fields are rounded for display but retained at
  full precision internally).  The events here record the exact values the
  simulation state uses; the running cash variable of the source is never
  rounded.
* Python's df.iloc[i-1] at i = 0 wraps to the last row; stepBar reproduces
  that (prevIdx below).  The loop itself starts at slope_window, so the wrap
  is only reachable when slope_window = 0.
* The source computes a least-squares EMA slope and two richer buy
  predicates (buy_condition_1 / buy_condition_2) at every bar but never uses
  them in any branch; they are modelled below (trailing_slope,
  buy_condition_1, buy_condition_2) and, exactly as in the source, appear in
  no transition.
-/

namespace StocksSim

/-- A daily price bar: calendar date (as an ordinal day number) and close. -/
structure Bar where
  date : ℕ
  close : ℚ
deriving Repr, DecidableEq, Inhabited

/-- df['Close'].ewm(span, adjust=False).mean(), tail recurrence: given the
previous EMA value, each new value is x*k + prev*(1-k). -/
def emaFrom (k : ℚ) (prev : ℚ) : List ℚ → List ℚ
  | [] => []
  | x :: xs => (x * k + prev * (1 - k)) :: emaFrom k (x * k + prev * (1 - k)) xs

/-- df['Close'].ewm(span=span, adjust=False).mean(): first value seeded as the
first price, then ema[i] = price[i]*k + ema[i-1]*(1-k) with k = 2/(span+1). -/
def ema (closes : List ℚ) (span : ℕ) : List ℚ :=
  match closes with
  | [] => []
  | x :: xs => x :: emaFrom (2 / ((span : ℚ) + 1)) x xs

/-- df['Close'].rolling(window=window).mean(): undefined (NaN in pandas,
none here) until the window is filled, then the trailing-window mean. -/
def sma (closes : List ℚ) (window : ℕ) : List (Option ℚ) :=
  (List.range closes.length).map fun i =>
    if window ≤ i + 1 then
      some (((closes.drop (i + 1 - window)).take window).sum / (window : ℚ))
    else none

/-- Trade actions; "SELL (EOD)" of the source is the forced end-of-data exit
the spec tags SELL_EOD. -/
inductive Action where
  | BUY
  | SELL
  | SELL_EOD
deriving Repr, DecidableEq, Inhabited

/-- One row appended to trade_log. -/
structure TradeEvent where
  date : ℕ
  action : Action
  price : ℚ
  shares : ℤ
  portfolioValue : ℚ
deriving Repr, DecidableEq

/-- The mutable loop state of simulate_strategy: position (held shares),
cash, and the trade log built so far. -/
structure SimState where
  position : ℤ
  cash : ℚ
  log : List TradeEvent
deriving Repr, DecidableEq

/-- One row of the indicator frame the loop reads: Close, EMA20, SMA40. -/
structure Row where
  date : ℕ
  close : ℚ
  ema20 : ℚ
  sma40 : Option ℚ
deriving Repr, DecidableEq

/-- Out-of-range row default (indices are always in range along the real
control flow; with this default no branch can fire out of range). -/
def defRow : Row := { date := 0, close := 0, ema20 := 0, sma40 := none }

/-- Default event used only as a List.getD fallback in statements. -/
def defEvent : TradeEvent :=
  { date := 0, action := Action.BUY, price := 0, shares := 0, portfolioValue := 0 }

/-- Row lookup, defRow out of range. -/
def rowAt (rows : List Row) (i : ℕ) : Row := rows.getD i defRow

/-- Python comparison x > o where o may be NaN (none): false when undefined. -/
def isAbove (x : ℚ) : Option ℚ → Bool
  | some y => decide (y < x)
  | none => false

/-- Python comparison x < o where o may be NaN (none): false when undefined. -/
def isBelow (x : ℚ) : Option ℚ → Bool
  | some y => decide (x < y)
  | none => false

/-- Least-squares slope of ys = emas[i-w .. i-1] against x = 0..w-1 (the
LinearRegression().fit(...).coef_ the source computes and never uses). -/
def trailing_slope (emas : List ℚ) (i w : ℕ) : ℚ :=
  let ys := (emas.drop (i - w)).take w
  let xs := (List.range w).map fun j => (j : ℚ)
  let sx := xs.sum
  let sxx := (xs.map fun x => x * x).sum
  let sy := ys.sum
  let sxy := (List.zipWith (fun x y => x * y) xs ys).sum
  ((w : ℚ) * sxy - sx * sy) / ((w : ℚ) * sxx - sx * sx)

/-- buy_condition_1 of the source (slope-confirmed EMA crossover); computed
at every bar, used in no branch. -/
def buy_condition_1 (rows : List Row) (i sw : ℕ) : Prop :=
  (rowAt rows (i - 1)).close < (rowAt rows (i - 1)).ema20 ∧
  (rowAt rows i).ema20 < (rowAt rows i).close ∧
  0 < trailing_slope (rows.map Row.ema20) i sw

/-- buy_condition_2 of the source (EMA/SMA crossover with price above both);
computed at every bar, used in no branch. -/
def buy_condition_2 (rows : List Row) (i : ℕ) : Prop :=
  isBelow (rowAt rows (i - 1)).ema20 (rowAt rows (i - 1)).sma40 = true ∧
  isAbove (rowAt rows i).ema20 (rowAt rows i).sma40 = true ∧
  (rowAt rows i).ema20 < (rowAt rows i).close ∧
  isAbove (rowAt rows i).close (rowAt rows i).sma40 = true

/-- The body of the per-bar loop of simulate_strategy.  BUY branch: position
`== 0 and price > ema and price > sma`; then shares = cash // price, and only
if shares > 0 the position is opened.  SELL branch: position > 0 and
prev_price > prev_sma and price < sma.  Anything else leaves the state
untouched. -/
def stepBar (rows : List Row) (i : ℕ) (st : SimState) : SimState :=
  let r := rowAt rows i
  let prevIdx := if i = 0 then rows.length - 1 else i - 1
  let p := rowAt rows prevIdx
  if st.position = 0 ∧ r.ema20 < r.close ∧ isAbove r.close r.sma40 = true then
    let shares : ℤ := ⌊st.cash / r.close⌋
    if 0 < shares then
      { position := shares
        cash := st.cash - (shares : ℚ) * r.close
        log := st.log ++ [{ date := r.date, action := Action.BUY, price := r.close,
                            shares := shares,
                            portfolioValue :=
                              (st.cash - (shares : ℚ) * r.close) + (shares : ℚ) * r.close }] }
    else st
  else if 0 < st.position ∧ isAbove p.close p.sma40 = true ∧ isBelow r.close r.sma40 = true then
    { position := 0
      cash := st.cash + (st.position : ℚ) * r.close
      log := st.log ++ [{ date := r.date, action := Action.SELL, price := r.close,
                          shares := st.position,
                          portfolioValue := st.cash + (st.position : ℚ) * r.close }] }
  else st

/-- `for i in range(slope_window, len(df))` over the frame rows. -/
def simLoop (rows : List Row) (sw : ℕ) (st : SimState) : SimState :=
  (List.range' sw (rows.length - sw)).foldl (fun s i => stepBar rows i s) st

/-- The final-exit block: if still holding after the last bar, liquidate at
the last close and append the SELL (EOD) event. -/
def finalExit (rows : List Row) (st : SimState) : SimState :=
  if 0 < st.position then
    let r := rowAt rows (rows.length - 1)
    { position := 0
      cash := st.cash + (st.position : ℚ) * r.close
      log := st.log ++ [{ date := r.date, action := Action.SELL_EOD, price := r.close,
                          shares := st.position,
                          portfolioValue := st.cash + (st.position : ℚ) * r.close }] }
  else st

/-- Assemble the indicator frame: EMA20 and SMA40 columns computed over the
full downloaded close series, aligned by index. -/
def buildFrame (bars : List Bar) : List Row :=
  let closes := bars.map Bar.close
  let emas := ema closes 20
  let smas := sma closes 40
  (List.range bars.length).map fun i =>
    { date := (bars.getD i default).date
      close := closes.getD i 0
      ema20 := emas.getD i 0
      sma40 := smas.getD i none }

/-- simulate_strategy: indicators over the full series, then the date filter
`df = df[df.index >= start]`, then the position loop from slope_window, then
the forced final exit.  Returns the final SimState (position, cash,
trade_log). -/
def simulate_strategy (bars : List Bar) (startDate : ℕ) (initial_capital : ℚ)
    (slope_window : ℕ) : SimState :=
  let rows := (buildFrame bars).filter fun r => decide (startDate ≤ r.date)
  finalExit rows (simLoop rows slope_window
    { position := 0, cash := initial_capital, log := [] })

/-- Signed cash delta of a logged event (negative for a BUY, positive for a
SELL or the forced EOD SELL), at full precision. -/
def cashDelta (e : TradeEvent) : ℚ :=
  match e.action with
  | Action.BUY => -((e.shares : ℚ) * e.price)
  | Action.SELL => (e.shares : ℚ) * e.price
  | Action.SELL_EOD => (e.shares : ℚ) * e.price

/-- The run-level summary line of simulate_strategy. -/
structure Summary where
  initial_capital : ℚ
  final_cash : ℚ
  profit : ℚ
  return_pct : ℚ
deriving Repr, DecidableEq

/-- Summary as formatted by the source: profit is cash - initial_capital and
the percentage is (cash / initial_capital - 1) * 100. -/
def mkSummary (initial cash : ℚ) : Summary :=
  { initial_capital := initial
    final_cash := cash
    profit := cash - initial
    return_pct := (cash / initial - 1) * 100 }

/-- Alternation checker for a trade log: the flag says whether a position is
currently open; a BUY is legal only when flat, a SELL / SELL_EOD only when
holding; returns the final flag, or none on any violation. -/
def scanPos : Bool → List Action → Option Bool
  | b, [] => some b
  | false, Action.BUY :: r => scanPos true r
  | true, Action.SELL :: r => scanPos false r
  | true, Action.SELL_EOD :: r => scanPos false r
  | _, _ => none

/-- Insertion step of the date sort. -/
def insertByDate (b : Bar) : List Bar → List Bar
  | [] => [b]
  | c :: cs => if b.date ≤ c.date then b :: c :: cs else c :: insertByDate b cs

/-- Insertion sort of a bar list by date (the defensive re-sort the spec
asks of the core). -/
def sortByDate (bs : List Bar) : List Bar := bs.foldr insertByDate []

/-- Rising 41-bar series (dates 0..40): close 1 on the first 39 bars, 2 on
the last two.  Long enough to clear the 40-bar SMA warm-up: the sorted run
buys at index 39 and force-exits at the end. -/
def barsRise : List Bar :=
  (List.range 41).map fun j => { date := j, close := if 39 ≤ j then 2 else 1 }

/-- The same bars delivered in reverse date order. -/
def barsShuffled : List Bar := barsRise.reverse

/-- Concrete one-row frame on which the BUY branch fires. -/
def wBuyRows : List Row := [{ date := 0, close := 10, ema20 := 9, sma40 := some 8 }]

/-- Concrete two-row frame on which the SELL branch fires at index 1. -/
def wSellRows : List Row :=
  [{ date := 0, close := 10, ema20 := 0, sma40 := some 5 },
   { date := 1, close := 4, ema20 := 0, sma40 := some 5 }]

/-- Concrete frame whose single row has an undefined SMA. -/
def wSkipRows : List Row := [{ date := 7, close := 10, ema20 := 9, sma40 := none }]

/-- One early bar: the whole (filtered) frame is inside the warm-up skip. -/
def barsOne : List Bar := [{ date := 0, close := 1 }]

set_option maxRecDepth 100000

/- Generic preservation of an invariant along a left fold. -/
theorem foldl_invariant {σ α : Type} (f : σ → α → σ) (I : σ → Prop)
    (hf : ∀ s a, I s → I (f s a)) : ∀ (l : List α) (s : σ), I s → I (l.foldl f s) := by
  intro l
  induction l with
  | nil => intro s h; exact h
  | cons a t ih => intro s h; exact ih (f s a) (hf s a h)

/- Out-of-range row lookups give the inert default row. -/
theorem rowAt_of_le (rows : List Row) (i : ℕ) (h : rows.length ≤ i) :
    rowAt rows i = defRow := by
  rw [rowAt, List.getD_eq_getElem?_getD, List.getElem?_eq_none h]
  rfl

/- In-range row lookups land in the list. -/
theorem rowAt_mem (rows : List Row) (i : ℕ) (h : i < rows.length) :
    rowAt rows i ∈ rows := by
  rw [rowAt, List.getD_eq_getElem rows defRow h]
  exact List.getElem_mem h

/-- C1: in the FLAT state the BUY transition is gated exactly by
close > ema and close > sma (the richer predicates buy_condition_1 and
buy_condition_2 of the source appear in no branch): when the gate holds and
shares = floor(cash / close) is not positive, the bar is a silent no-op;
when shares is positive, cash drops by shares*close, the position becomes
shares, and exactly one BUY event is appended whose portfolio value is the
post-buy cash plus shares*close; when the gate fails nothing at all
happens. -/
theorem buy_transition_rule (rows : List Row) (i : ℕ) (st : SimState)
    (h0 : st.position = 0) :
    ((rowAt rows i).ema20 < (rowAt rows i).close ∧
        isAbove (rowAt rows i).close (rowAt rows i).sma40 = true →
      (⌊st.cash / (rowAt rows i).close⌋ ≤ 0 → stepBar rows i st = st) ∧
      (0 < ⌊st.cash / (rowAt rows i).close⌋ →
        stepBar rows i st =
          { position := ⌊st.cash / (rowAt rows i).close⌋
            cash := st.cash - (⌊st.cash / (rowAt rows i).close⌋ : ℚ) * (rowAt rows i).close
            log := st.log ++
              [{ date := (rowAt rows i).date, action := Action.BUY,
                 price := (rowAt rows i).close,
                 shares := ⌊st.cash / (rowAt rows i).close⌋,
                 portfolioValue :=
                   (st.cash - (⌊st.cash / (rowAt rows i).close⌋ : ℚ) * (rowAt rows i).close) +
                     (⌊st.cash / (rowAt rows i).close⌋ : ℚ) * (rowAt rows i).close }] })) ∧
    (¬((rowAt rows i).ema20 < (rowAt rows i).close ∧
        isAbove (rowAt rows i).close (rowAt rows i).sma40 = true) →
      stepBar rows i st = st) := by
  constructor
  · rintro ⟨hema, hsma⟩
    constructor
    · intro hle
      simp only [stepBar]
      generalize rowAt rows (if i = 0 then rows.length - 1 else i - 1) = prow
      split_ifs with h1 h2 h3
      · exact absurd h2 (by omega)
      · rfl
      · exact absurd h3.1 (by omega)
      · rfl
    · intro hpos
      simp only [stepBar]
      generalize rowAt rows (if i = 0 then rows.length - 1 else i - 1) = prow
      split_ifs with h1 h2
      · rfl
      · exact absurd ⟨h0, hema, hsma⟩ h1
      · exact absurd ⟨h0, hema, hsma⟩ h1
  · intro hng
    simp only [stepBar]
    generalize rowAt rows (if i = 0 then rows.length - 1 else i - 1) = prow
    split_ifs with h1 h2 h3
    · exact absurd ⟨h1.2.1, h1.2.2⟩ hng
    · exact absurd ⟨h1.2.1, h1.2.2⟩ hng
    · exact absurd h3.1 (by omega)
    · rfl

/-- C1 witness: a concrete executed BUY (cash 25, price 10: 2 shares,
residue 5, portfolio value 25). -/
theorem buy_transition_rule_witness :
    stepBar wBuyRows 0 { position := 0, cash := 25, log := [] } =
      { position := ⌊(25 : ℚ) / (rowAt wBuyRows 0).close⌋
        cash := 25 - (⌊(25 : ℚ) / (rowAt wBuyRows 0).close⌋ : ℚ) * (rowAt wBuyRows 0).close
        log := [{ date := (rowAt wBuyRows 0).date, action := Action.BUY,
                  price := (rowAt wBuyRows 0).close,
                  shares := ⌊(25 : ℚ) / (rowAt wBuyRows 0).close⌋,
                  portfolioValue :=
                    (25 - (⌊(25 : ℚ) / (rowAt wBuyRows 0).close⌋ : ℚ) * (rowAt wBuyRows 0).close) +
                      (⌊(25 : ℚ) / (rowAt wBuyRows 0).close⌋ : ℚ) * (rowAt wBuyRows 0).close }] } :=
  ((buy_transition_rule wBuyRows 0 { position := 0, cash := 25, log := [] } rfl).1
    ⟨by decide, by decide⟩).2 (by with_unfolding_all decide)

/-- C2: in the LONG state the SELL transition at a bar i >= 1 fires exactly
when the previous close was above the previous SMA and the current close is
below the current SMA; on fire, cash grows by position*close, exactly one
SELL event carrying the sold share count and the updated cash is appended,
and the position returns to 0; otherwise the bar changes nothing. -/
theorem sell_transition_rule (rows : List Row) (i : ℕ) (st : SimState)
    (hpos : 0 < st.position) (hi : 1 ≤ i) :
    (isAbove (rowAt rows (i - 1)).close (rowAt rows (i - 1)).sma40 = true ∧
        isBelow (rowAt rows i).close (rowAt rows i).sma40 = true →
      stepBar rows i st =
        { position := 0
          cash := st.cash + (st.position : ℚ) * (rowAt rows i).close
          log := st.log ++
            [{ date := (rowAt rows i).date, action := Action.SELL,
               price := (rowAt rows i).close, shares := st.position,
               portfolioValue := st.cash + (st.position : ℚ) * (rowAt rows i).close }] }) ∧
    (¬(isAbove (rowAt rows (i - 1)).close (rowAt rows (i - 1)).sma40 = true ∧
        isBelow (rowAt rows i).close (rowAt rows i).sma40 = true) →
      stepBar rows i st = st) := by
  have hne : ¬(i = 0) := by omega
  constructor
  · rintro ⟨hprev, hcur⟩
    simp only [stepBar, if_neg hne]
    split_ifs with h1 h2 h3
    · exact absurd h1.1 (by omega)
    · exact absurd h1.1 (by omega)
    · rfl
    · exact absurd ⟨hpos, hprev, hcur⟩ h3
  · intro hng
    simp only [stepBar, if_neg hne]
    split_ifs with h1 h2 h3
    · exact absurd h1.1 (by omega)
    · exact absurd h1.1 (by omega)
    · exact absurd ⟨h3.2.1, h3.2.2⟩ hng
    · rfl

/-- C2 witness: a concrete rule-triggered SELL (3 held shares sold at 4
after the close crosses below the SMA). -/
theorem sell_transition_rule_witness :
    stepBar wSellRows 1 { position := 3, cash := 0, log := [] } =
      { position := 0
        cash := 0 + ((3 : ℤ) : ℚ) * (rowAt wSellRows 1).close
        log := [{ date := (rowAt wSellRows 1).date, action := Action.SELL,
                  price := (rowAt wSellRows 1).close, shares := 3,
                  portfolioValue := 0 + ((3 : ℤ) : ℚ) * (rowAt wSellRows 1).close }] } :=
  (sell_transition_rule wSellRows 1 { position := 3, cash := 0, log := [] }
    (by decide) (by decide)).1 ⟨by decide, by decide⟩

/-- C10: immediately after an executed BUY the residual cash lies in
[0, close): the simulator commits everything except a residue strictly
below the price of one share. -/
theorem buy_residual_cash (rows : List Row) (i : ℕ) (st : SimState)
    (h0 : st.position = 0) (hp : 0 < (rowAt rows i).close)
    (hg : (rowAt rows i).ema20 < (rowAt rows i).close ∧
      isAbove (rowAt rows i).close (rowAt rows i).sma40 = true)
    (hs : 0 < ⌊st.cash / (rowAt rows i).close⌋) :
    0 ≤ (stepBar rows i st).cash ∧ (stepBar rows i st).cash < (rowAt rows i).close := by
  have hstep : (stepBar rows i st).cash
      = st.cash - (⌊st.cash / (rowAt rows i).close⌋ : ℚ) * (rowAt rows i).close := by
    simp only [stepBar]
    generalize rowAt rows (if i = 0 then rows.length - 1 else i - 1) = prow
    split_ifs with h1 h2
    · rfl
    · exact absurd ⟨h0, hg.1, hg.2⟩ h1
    · exact absurd ⟨h0, hg.1, hg.2⟩ h1
  set c := (rowAt rows i).close with hc
  set q := st.cash / c with hq
  have hcash : q * c = st.cash := div_mul_cancel₀ st.cash (ne_of_gt hp)
  have h1 : (⌊q⌋ : ℚ) ≤ q := Int.floor_le q
  have h2 : q < ⌊q⌋ + 1 := Int.lt_floor_add_one q
  constructor
  · rw [hstep, ← hcash]
    nlinarith [mul_le_mul_of_nonneg_right h1 (le_of_lt hp)]
  · rw [hstep, ← hcash]
    nlinarith [mul_lt_mul_of_pos_right h2 hp]

/- stepBar never makes the position negative. -/
theorem stepBar_position_nonneg (rows : List Row) (i : ℕ) (st : SimState)
    (h : 0 ≤ st.position) : 0 ≤ (stepBar rows i st).position := by
  simp only [stepBar]
  generalize rowAt rows (if i = 0 then rows.length - 1 else i - 1) = prow
  split_ifs with h1 h2 h3
  · show (0 : ℤ) ≤ ⌊st.cash / (rowAt rows i).close⌋
    omega
  · exact h
  · exact le_refl 0
  · exact h

/- The loop never makes the position negative. -/
theorem simLoop_position_nonneg (rows : List Row) (sw : ℕ) (st : SimState)
    (h : 0 ≤ st.position) : 0 ≤ (simLoop rows sw st).position :=
  foldl_invariant (fun s i => stepBar rows i s) (fun s => 0 ≤ s.position)
    (fun s a hs => stepBar_position_nonneg rows a s hs) _ st h

/-- C3: a run still LONG after the last processed bar is liquidated at the
last available close: cash grows by position*close, the position becomes 0,
and exactly one SELL_EOD event dated at the last bar is appended; a run that
is FLAT appends nothing; consequently every simulation run terminates with
zero held shares. -/
theorem final_exit_rule :
    (∀ (rows : List Row) (st : SimState), 0 < st.position →
      finalExit rows st =
        { position := 0
          cash := st.cash + (st.position : ℚ) * (rowAt rows (rows.length - 1)).close
          log := st.log ++
            [{ date := (rowAt rows (rows.length - 1)).date, action := Action.SELL_EOD,
               price := (rowAt rows (rows.length - 1)).close, shares := st.position,
               portfolioValue :=
                 st.cash + (st.position : ℚ) * (rowAt rows (rows.length - 1)).close }] }) ∧
    (∀ (rows : List Row) (st : SimState), st.position = 0 → finalExit rows st = st) ∧
    (∀ (bars : List Bar) (startDate : ℕ) (cap : ℚ) (sw : ℕ),
      (simulate_strategy bars startDate cap sw).position = 0) := by
  refine ⟨?_, ?_, ?_⟩
  · intro rows st h
    simp only [finalExit, if_pos h]
  · intro rows st h
    simp only [finalExit]
    rw [if_neg (by omega)]
  · intro bars startDate cap sw
    have hinv := simLoop_position_nonneg
      ((buildFrame bars).filter fun r => decide (startDate ≤ r.date)) sw
      { position := 0, cash := cap, log := [] } (le_refl 0)
    simp only [simulate_strategy, finalExit]
    split_ifs with h1
    · rfl
    · omega

/-- C3 witness: a LONG state of 3 shares is force-liquidated at the last
close of the frame, and a fully simulated run ends with position 0. -/
theorem final_exit_rule_witness :
    finalExit wSellRows { position := 3, cash := 0, log := [] } =
      { position := 0
        cash := 0 + ((3 : ℤ) : ℚ) * (rowAt wSellRows (wSellRows.length - 1)).close
        log := [{ date := (rowAt wSellRows (wSellRows.length - 1)).date,
                  action := Action.SELL_EOD,
                  price := (rowAt wSellRows (wSellRows.length - 1)).close, shares := 3,
                  portfolioValue :=
                    0 + ((3 : ℤ) : ℚ) * (rowAt wSellRows (wSellRows.length - 1)).close }] } ∧
      (simulate_strategy barsOne 0 100 6).position = 0 :=
  ⟨final_exit_rule.1 wSellRows { position := 3, cash := 0, log := [] } (by decide),
   final_exit_rule.2.2 barsOne 0 100 6⟩

/- floor(c/p)*p never exceeds c when p is positive. -/
theorem floor_mul_le (c p : ℚ) (hp : 0 < p) : (⌊c / p⌋ : ℚ) * p ≤ c := by
  have h1 : (⌊c / p⌋ : ℚ) ≤ c / p := Int.floor_le _
  have h2 := mul_le_mul_of_nonneg_right h1 (le_of_lt hp)
  rwa [div_mul_cancel₀ c (ne_of_gt hp)] at h2

/-- C4: with positive closes, held shares and cash stay non-negative at
every step of the run (hence along every prefix of processed bars), and a
BUY never overspends: the cost floor(cash/close)*close of the purchase never
exceeds the cash held just before it. -/
theorem position_cash_invariants (rows : List Row) (hrows : ∀ r ∈ rows, 0 < r.close) :
    (∀ (i : ℕ) (st : SimState), 0 ≤ st.position → 0 ≤ st.cash →
      0 ≤ (stepBar rows i st).position ∧ 0 ≤ (stepBar rows i st).cash) ∧
    (∀ (sw : ℕ) (st : SimState), 0 ≤ st.position → 0 ≤ st.cash →
      0 ≤ (simLoop rows sw st).position ∧ 0 ≤ (simLoop rows sw st).cash) ∧
    (∀ (i : ℕ) (st : SimState), 0 ≤ st.cash → i < rows.length →
      (⌊st.cash / (rowAt rows i).close⌋ : ℚ) * (rowAt rows i).close ≤ st.cash) := by
  have hstep : ∀ (i : ℕ) (st : SimState), 0 ≤ st.position → 0 ≤ st.cash →
      0 ≤ (stepBar rows i st).position ∧ 0 ≤ (stepBar rows i st).cash := by
    intro i st hpos hcash
    by_cases hi : i < rows.length
    · have hc := hrows _ (rowAt_mem rows i hi)
      simp only [stepBar]
      generalize rowAt rows (if i = 0 then rows.length - 1 else i - 1) = prow
      split_ifs with h1 h2 h3
      · constructor
        · show (0 : ℤ) ≤ ⌊st.cash / (rowAt rows i).close⌋
          omega
        · show (0 : ℚ) ≤ st.cash -
            (⌊st.cash / (rowAt rows i).close⌋ : ℚ) * (rowAt rows i).close
          linarith [floor_mul_le st.cash (rowAt rows i).close hc]
      · exact ⟨hpos, hcash⟩
      · constructor
        · exact le_refl 0
        · show (0 : ℚ) ≤ st.cash + (st.position : ℚ) * (rowAt rows i).close
          have : (0 : ℚ) ≤ (st.position : ℚ) * (rowAt rows i).close :=
            mul_nonneg (by exact_mod_cast hpos) (le_of_lt hc)
          linarith
      · exact ⟨hpos, hcash⟩
    · have hd : rowAt rows i = defRow := rowAt_of_le rows i (by omega)
      simp only [stepBar, hd]
      generalize rowAt rows (if i = 0 then rows.length - 1 else i - 1) = prow
      split_ifs with h1 h2 h3
      · exact absurd h1.2.1 (by norm_num [defRow])
      · exact absurd h1.2.1 (by norm_num [defRow])
      · exact absurd h3.2.2 (by simp [defRow, isBelow])
      · exact ⟨hpos, hcash⟩
  refine ⟨hstep, ?_, ?_⟩
  · intro sw st hpos hcash
    exact foldl_invariant (fun s j => stepBar rows j s)
      (fun s => 0 ≤ s.position ∧ 0 ≤ s.cash)
      (fun s a hs => hstep a s hs.1 hs.2) _ st ⟨hpos, hcash⟩
  · intro i st hcash hi
    exact floor_mul_le st.cash (rowAt rows i).close (hrows _ (rowAt_mem rows i hi))

/-- C4 witness: the invariants hold across the concrete executed BUY, and
the concrete purchase cost 2*10 stays within the cash 25 held before it. -/
theorem position_cash_invariants_witness :
    (0 ≤ (stepBar wBuyRows 0 { position := 0, cash := 25, log := [] }).position ∧
      0 ≤ (stepBar wBuyRows 0 { position := 0, cash := 25, log := [] }).cash) ∧
    (⌊(25 : ℚ) / (rowAt wBuyRows 0).close⌋ : ℚ) * (rowAt wBuyRows 0).close ≤ 25 :=
  ⟨(position_cash_invariants wBuyRows (by decide)).1 0
      { position := 0, cash := 25, log := [] } (by decide) (by decide),
   (position_cash_invariants wBuyRows (by decide)).2.2 0
      { position := 0, cash := 25, log := [] } (by decide) (by decide)⟩

/-- C6: the loop only visits indices at or above slope_window (bars before
it are skipped entirely: a frame no longer than slope_window produces the
untouched initial state and an empty log, not an error), and a processed
bar whose SMA is still undefined changes neither the position state nor the
log: the bar is skipped, its undefined value never read as zero. -/
theorem warmup_and_undefined_skip :
    (∀ (rows : List Row) (sw i : ℕ), i ∈ List.range' sw (rows.length - sw) → sw ≤ i) ∧
    (∀ (bars : List Bar) (startDate : ℕ) (cap : ℚ) (sw : ℕ),
      ((buildFrame bars).filter fun r => decide (startDate ≤ r.date)).length ≤ sw →
      simulate_strategy bars startDate cap sw =
        { position := 0, cash := cap, log := [] }) ∧
    (∀ (rows : List Row) (i : ℕ) (st : SimState),
      (rowAt rows i).sma40 = none → stepBar rows i st = st) := by
  refine ⟨?_, ?_, ?_⟩
  · intro rows sw i hi
    have := List.mem_range'_1.mp hi
    omega
  · intro bars startDate cap sw h
    simp only [simulate_strategy, simLoop]
    rw [Nat.sub_eq_zero_of_le h]
    simp [finalExit]
  · intro rows i st hnone
    simp only [stepBar, hnone]
    generalize rowAt rows (if i = 0 then rows.length - 1 else i - 1) = prow
    split_ifs with h1 h2 h3
    · exact absurd h1.2.2 (by simp [isAbove])
    · exact absurd h1.2.2 (by simp [isAbove])
    · exact absurd h3.2.2 (by simp [isBelow])
    · rfl

/-- C6 witness: a one-bar run is entirely inside the warm-up skip and
returns the initial state untouched, and a bar with an undefined SMA is a
no-op on a concrete state. -/
theorem warmup_and_undefined_skip_witness :
    simulate_strategy barsOne 0 100 6 = { position := 0, cash := 100, log := [] } ∧
      stepBar wSkipRows 0 { position := 0, cash := 100, log := [] } =
        { position := 0, cash := 100, log := [] } :=
  ⟨warmup_and_undefined_skip.2.1 barsOne 0 100 6 (by decide),
   warmup_and_undefined_skip.2.2 wSkipRows 0 { position := 0, cash := 100, log := [] } rfl⟩

/- Exhaustive case split on one loop step: a bar is a no-op, an executed
BUY from the flat state, or an executed SELL from the long state. -/
theorem stepBar_cases (rows : List Row) (i : ℕ) (st : SimState) :
    stepBar rows i st = st ∨
    (∃ s : ℤ, 0 < s ∧ st.position = 0 ∧
      stepBar rows i st =
        { position := s
          cash := st.cash - (s : ℚ) * (rowAt rows i).close
          log := st.log ++
            [{ date := (rowAt rows i).date, action := Action.BUY,
               price := (rowAt rows i).close, shares := s,
               portfolioValue :=
                 (st.cash - (s : ℚ) * (rowAt rows i).close) +
                   (s : ℚ) * (rowAt rows i).close }] }) ∨
    (0 < st.position ∧
      stepBar rows i st =
        { position := 0
          cash := st.cash + (st.position : ℚ) * (rowAt rows i).close
          log := st.log ++
            [{ date := (rowAt rows i).date, action := Action.SELL,
               price := (rowAt rows i).close, shares := st.position,
               portfolioValue := st.cash + (st.position : ℚ) * (rowAt rows i).close }] }) := by
  simp only [stepBar]
  generalize rowAt rows (if i = 0 then rows.length - 1 else i - 1) = prow
  split_ifs with h1 h2 h3
  · exact Or.inr (Or.inl ⟨_, h2, h1.1, rfl⟩)
  · exact Or.inl rfl
  · exact Or.inr (Or.inr ⟨h3.1, rfl⟩)
  · exact Or.inl rfl

/- Scanning a concatenation threads the open-position flag through. -/
theorem scanPos_append :
    ∀ (l m : List Action) (b : Bool),
      scanPos b (l ++ m) = (scanPos b l).bind fun c => scanPos c m := by
  intro l
  induction l with
  | nil =>
    intro m b
    cases b <;> simp [scanPos]
  | cons a t ih =>
    intro m b
    cases b <;> cases a <;> simp [scanPos, ih]

/- One loop step preserves the alternation invariant: the log scans cleanly
from the flat flag and ends on a flag matching the current position. -/
theorem stepBar_scan (rows : List Row) (i : ℕ) (st : SimState)
    (h : scanPos false (st.log.map TradeEvent.action) = some (decide (0 < st.position))) :
    scanPos false ((stepBar rows i st).log.map TradeEvent.action)
      = some (decide (0 < (stepBar rows i st).position)) := by
  rcases stepBar_cases rows i st with heq | ⟨s, hs, hp0, heq⟩ | ⟨hpos, heq⟩
  · rw [heq]; exact h
  · have hflag : decide (0 < st.position) = false := by simp [hp0]
    rw [hflag] at h
    rw [heq]
    simp [List.map_append, scanPos_append, h, scanPos, hs]
  · have hflag : decide (0 < st.position) = true := by simp [hpos]
    rw [hflag] at h
    rw [heq]
    simp [List.map_append, scanPos_append, h, scanPos]

/- The forced exit closes any open position, so the final log scans to the
flat flag. -/
theorem finalExit_scan (rows : List Row) (st : SimState)
    (h : scanPos false (st.log.map TradeEvent.action) = some (decide (0 < st.position))) :
    scanPos false ((finalExit rows st).log.map TradeEvent.action) = some false := by
  simp only [finalExit]
  split_ifs with h1
  · rw [decide_eq_true h1] at h
    simp [List.map_append, scanPos_append, h, scanPos]
  · rw [decide_eq_false h1] at h
    exact h

/- A clean scan forces the action at index k to be a BUY exactly when the
position flag at k is flat, and fixes the parity of the length. -/
theorem scanPos_spec :
    ∀ (l : List Action) (b c : Bool), scanPos b l = some c →
      (∀ k, k < l.length →
        (l.getD k Action.BUY = Action.BUY ↔ (b.toNat + k) % 2 = 0)) ∧
      c.toNat = (b.toNat + l.length) % 2 := by
  intro l
  induction l with
  | nil =>
    intro b c h
    have hbc : b = c := by simpa [scanPos] using h
    constructor
    · intro k hk
      simp at hk
    · cases b <;> simp_all
  | cons a t ih =>
    intro b c h
    cases b with
    | false =>
      cases a with
      | BUY =>
        rw [show scanPos false (Action.BUY :: t) = scanPos true t from rfl] at h
        obtain ⟨ihg, ihl⟩ := ih true c h
        constructor
        · intro k hk
          cases k with
          | zero => simp
          | succ j =>
            have hj : j < t.length := by simpa using hk
            have hget := ihg j hj
            simp only [Bool.toNat_true] at hget
            simp only [List.getD_cons_succ, Bool.toNat_false]
            rw [hget]
            omega
        · simp only [Bool.toNat_true] at ihl
          simp only [Bool.toNat_false, List.length_cons]
          omega
      | SELL => exact absurd h (by simp [scanPos])
      | SELL_EOD => exact absurd h (by simp [scanPos])
    | true =>
      cases a with
      | BUY => exact absurd h (by simp [scanPos])
      | SELL =>
        rw [show scanPos true (Action.SELL :: t) = scanPos false t from rfl] at h
        obtain ⟨ihg, ihl⟩ := ih false c h
        constructor
        · intro k hk
          cases k with
          | zero => simp
          | succ j =>
            have hj : j < t.length := by simpa using hk
            have hget := ihg j hj
            simp only [Bool.toNat_false] at hget
            simp only [List.getD_cons_succ, Bool.toNat_true]
            rw [hget]
            omega
        · simp only [Bool.toNat_false] at ihl
          simp only [Bool.toNat_true, List.length_cons]
          omega
      | SELL_EOD =>
        rw [show scanPos true (Action.SELL_EOD :: t) = scanPos false t from rfl] at h
        obtain ⟨ihg, ihl⟩ := ih false c h
        constructor
        · intro k hk
          cases k with
          | zero => simp
          | succ j =>
            have hj : j < t.length := by simpa using hk
            have hget := ihg j hj
            simp only [Bool.toNat_false] at hget
            simp only [List.getD_cons_succ, Bool.toNat_true]
            rw [hget]
            omega
        · simp only [Bool.toNat_false] at ihl
          simp only [Bool.toNat_true, List.length_cons]
          omega

/- Reading the action column of the log commutes with indexing. -/
theorem action_getD :
    ∀ (l : List TradeEvent) (n : ℕ),
      (l.map TradeEvent.action).getD n Action.BUY = (l.getD n defEvent).action := by
  intro l
  induction l with
  | nil => intro n; rfl
  | cons a t ih =>
    intro n
    cases n with
    | zero => rfl
    | succ m =>
      simp only [List.map_cons, List.getD_cons_succ]
      exact ih m

/-- C5: in every trade log the simulator produces, the event at an even
index is a BUY and at an odd index a SELL or SELL_EOD (so BUYs happen only
from the flat state, sells only from the long state, the log starts with a
BUY when non-empty, and no second position opens before the first closes),
and the log has even length: every opened position is eventually closed. -/
theorem trade_log_alternation (bars : List Bar) (startDate : ℕ) (cap : ℚ) (sw : ℕ) :
    (∀ k, k < (simulate_strategy bars startDate cap sw).log.length →
      (((simulate_strategy bars startDate cap sw).log.getD k defEvent).action =
          Action.BUY ↔ k % 2 = 0)) ∧
    (simulate_strategy bars startDate cap sw).log.length % 2 = 0 := by
  have hscan : scanPos false
      ((simulate_strategy bars startDate cap sw).log.map TradeEvent.action) = some false := by
    simp only [simulate_strategy, simLoop]
    apply finalExit_scan
    apply foldl_invariant _
      (fun s => scanPos false (s.log.map TradeEvent.action) = some (decide (0 < s.position)))
      (fun s a hs => stepBar_scan _ a s hs)
    rfl
  obtain ⟨hget, hlen⟩ := scanPos_spec _ false false hscan
  constructor
  · intro k hk
    have hk2 : k < ((simulate_strategy bars startDate cap sw).log.map TradeEvent.action).length := by
      simpa using hk
    have hiff := hget k hk2
    rw [action_getD _ k] at hiff
    simpa using hiff
  · simp only [Bool.toNat_false, List.length_map] at hlen
    omega

/-- C5 witness: on the rising 41-bar run the first logged event is a BUY
and the log closes out to even length. -/
theorem trade_log_alternation_witness :
    (((simulate_strategy barsRise 0 5000 6).log.getD 0 defEvent).action = Action.BUY ↔
      0 % 2 = 0) ∧
    (simulate_strategy barsRise 0 5000 6).log.length % 2 = 0 :=
  ⟨(trade_log_alternation barsRise 0 5000 6).1 0 (by with_unfolding_all decide),
   (trade_log_alternation barsRise 0 5000 6).2⟩

/- One loop step preserves the ledger identity: summed log deltas equal
cash minus the starting capital. -/
theorem stepBar_cash_delta (rows : List Row) (i : ℕ) (cap : ℚ) (st : SimState)
    (h : (st.log.map cashDelta).sum = st.cash - cap) :
    ((stepBar rows i st).log.map cashDelta).sum = (stepBar rows i st).cash - cap := by
  rcases stepBar_cases rows i st with heq | ⟨s, hs, hp0, heq⟩ | ⟨hpos, heq⟩
  · rw [heq]; exact h
  · rw [heq]
    simp only [List.map_append, List.map_cons, List.map_nil, List.sum_append,
      List.sum_cons, List.sum_nil, cashDelta, h]
    ring
  · rw [heq]
    simp only [List.map_append, List.map_cons, List.map_nil, List.sum_append,
      List.sum_cons, List.sum_nil, cashDelta, h]
    ring

/- The forced exit preserves the ledger identity. -/
theorem finalExit_cash_delta (rows : List Row) (cap : ℚ) (st : SimState)
    (h : (st.log.map cashDelta).sum = st.cash - cap) :
    ((finalExit rows st).log.map cashDelta).sum = (finalExit rows st).cash - cap := by
  simp only [finalExit]
  split_ifs with h1
  · simp only [List.map_append, List.map_cons, List.map_nil, List.sum_append,
      List.sum_cons, List.sum_nil, cashDelta, h]
    ring
  · exact h

/-- C8: the signed cash deltas of all logged events (at full precision) sum
exactly to final cash minus initial capital, and the run summary reports
profit = final_cash - initial_capital and, for non-zero capital,
return percentage = profit / initial_capital * 100. -/
theorem cash_reconciliation (bars : List Bar) (startDate : ℕ) (cap : ℚ) (sw : ℕ)
    (hcap : cap ≠ 0) :
    ((simulate_strategy bars startDate cap sw).log.map cashDelta).sum
        = (simulate_strategy bars startDate cap sw).cash - cap ∧
    (mkSummary cap (simulate_strategy bars startDate cap sw).cash).profit
        = (simulate_strategy bars startDate cap sw).cash - cap ∧
    (mkSummary cap (simulate_strategy bars startDate cap sw).cash).return_pct
        = ((simulate_strategy bars startDate cap sw).cash - cap) / cap * 100 := by
  refine ⟨?_, rfl, ?_⟩
  · simp only [simulate_strategy, simLoop]
    apply finalExit_cash_delta
    apply foldl_invariant _ (fun s => (s.log.map cashDelta).sum = s.cash - cap)
      (fun s a hs => stepBar_cash_delta _ a cap s hs)
    simp
  · simp only [mkSummary]
    field_simp

/-- C8 witness: a trade-free one-bar run reconciles (empty log, zero delta)
and the summary identities hold with capital 100. -/
theorem cash_reconciliation_witness :
    ((simulate_strategy barsOne 0 100 6).log.map cashDelta).sum
        = (simulate_strategy barsOne 0 100 6).cash - 100 ∧
    (mkSummary 100 (simulate_strategy barsOne 0 100 6).cash).profit
        = (simulate_strategy barsOne 0 100 6).cash - 100 ∧
    (mkSummary 100 (simulate_strategy barsOne 0 100 6).cash).return_pct
        = ((simulate_strategy barsOne 0 100 6).cash - 100) / 100 * 100 :=
  cash_reconciliation barsOne 0 100 6 (by norm_num)

/-- C10 witness: cash 25 at price 10 leaves residue 5, inside [0, 10). -/
theorem buy_residual_cash_witness :
    0 ≤ (stepBar wBuyRows 0 { position := 0, cash := 25, log := [] }).cash ∧
      (stepBar wBuyRows 0 { position := 0, cash := 25, log := [] }).cash <
        (rowAt wBuyRows 0).close :=
  buy_residual_cash wBuyRows 0 { position := 0, cash := 25, log := [] }
    rfl (by decide) ⟨by decide, by decide⟩ (by with_unfolding_all decide)

/- The EMA tail has the same length as its input. -/
theorem emaFrom_length (k : ℚ) :
    ∀ (xs : List ℚ) (p : ℚ), (emaFrom k p xs).length = xs.length := by
  intro xs
  induction xs with
  | nil => intro p; rfl
  | cons x t ih => intro p; simp [emaFrom, ih]

/- The EMA tail satisfies the smoothing recurrence at every inner index. -/
theorem emaFrom_getD_succ (k : ℚ) :
    ∀ (xs : List ℚ) (p : ℚ) (i : ℕ), i + 1 < xs.length →
      (emaFrom k p xs).getD (i + 1) 0
        = xs.getD (i + 1) 0 * k + (emaFrom k p xs).getD i 0 * (1 - k) := by
  intro xs
  induction xs with
  | nil =>
    intro p i h
    simp at h
  | cons x t ih =>
    intro p i h
    cases i with
    | zero =>
      cases t with
      | nil => simp at h
      | cons y s => rfl
    | succ j =>
      have h2 : j + 1 < t.length := by simpa using h
      simp only [emaFrom, List.getD_cons_succ]
      exact ih (x * k + p * (1 - k)) j h2

/-- C9: for a non-empty price series, ema returns a series of the same
length defined at every index, seeded with the first price and following
ema[i] = price[i]*k + ema[i-1]*(1-k) with k = 2/(span+1); in particular
ema([5], 20) = [5]. -/
theorem ema_spec (closes : List ℚ) (span : ℕ) (hne : closes ≠ []) :
    (ema closes span).length = closes.length ∧
    (ema closes span).getD 0 0 = closes.getD 0 0 ∧
    (∀ i, i + 1 < closes.length →
      (ema closes span).getD (i + 1) 0
        = closes.getD (i + 1) 0 * (2 / ((span : ℚ) + 1))
          + (ema closes span).getD i 0 * (1 - 2 / ((span : ℚ) + 1))) ∧
    ema [(5 : ℚ)] 20 = [5] := by
  cases closes with
  | nil => exact absurd rfl hne
  | cons c cs =>
    refine ⟨by simp [ema, emaFrom_length], rfl, ?_, rfl⟩
    intro i h
    cases i with
    | zero =>
      cases cs with
      | nil => simp at h
      | cons y s => rfl
    | succ j =>
      have h2 : j + 1 < cs.length := by simpa using h
      simp only [ema, List.getD_cons_succ]
      exact emaFrom_getD_succ _ cs c j h2

/-- C9 witness: the spec instantiated on the one-element series of the
spec's own seeding example. -/
theorem ema_spec_witness :
    (ema [(5 : ℚ)] 20).length = ([(5 : ℚ)]).length ∧
    (ema [(5 : ℚ)] 20).getD 0 0 = ([(5 : ℚ)]).getD 0 0 ∧
    (∀ i, i + 1 < ([(5 : ℚ)]).length →
      (ema [(5 : ℚ)] 20).getD (i + 1) 0
        = ([(5 : ℚ)]).getD (i + 1) 0 * (2 / (((20 : ℕ) : ℚ) + 1))
          + (ema [(5 : ℚ)] 20).getD i 0 * (1 - 2 / (((20 : ℕ) : ℚ) + 1))) ∧
    ema [(5 : ℚ)] 20 = [5] :=
  ema_spec [(5 : ℚ)] 20 (by simp)

/- Inserting an element below every element of a list prepends it. -/
theorem insertByDate_of_le (b : Bar) (l : List Bar)
    (h : ∀ c ∈ l, b.date ≤ c.date) : insertByDate b l = b :: l := by
  cases l with
  | nil => rfl
  | cons c cs => simp [insertByDate, h c (List.mem_cons_self c cs)]

/- Sorting a list already in weakly increasing date order is the identity. -/
theorem sortByDate_of_sorted :
    ∀ (l : List Bar), List.Pairwise (fun a b => a.date ≤ b.date) l →
      sortByDate l = l := by
  intro l
  induction l with
  | nil => intro h; rfl
  | cons a t ih =>
    intro h
    rw [List.pairwise_cons] at h
    show insertByDate a (sortByDate t) = a :: t
    rw [ih h.2]
    exact insertByDate_of_le a t h.1

/-- C7 counterexample: the simulator performs no defensive re-sort.  On the
41-bar series delivered in reverse date order it produces an empty trade
log, while on the date-sorted version of the same series it produces a
BUY and a SELL_EOD: the outputs differ, refuting the claim that every input
series yields the same trade log as its date-sorted version. -/
theorem no_defensive_resort :
    (simulate_strategy barsShuffled 0 5000 6).log ≠
      (simulate_strategy (sortByDate barsShuffled) 0 5000 6).log := by
  with_unfolding_all decide

/-- C7 amended: the simulator processes bars in exactly the order the
provider delivers them; only when the input is already in (weakly)
increasing date order does its output coincide with the output on the
date-sorted series, the sort then being the identity. -/
theorem sim_agrees_on_sorted_input (bars : List Bar)
    (h : List.Pairwise (fun a b => a.date ≤ b.date) bars)
    (startDate : ℕ) (cap : ℚ) (sw : ℕ) :
    simulate_strategy bars startDate cap sw =
      simulate_strategy (sortByDate bars) startDate cap sw := by
  rw [sortByDate_of_sorted bars h]

/-- C7 amended witness: on a date-sorted input the run coincides with the
run on its sorted copy. -/
theorem sim_agrees_on_sorted_input_witness :
    simulate_strategy barsOne 0 100 6 =
      simulate_strategy (sortByDate barsOne) 0 100 6 :=
  sim_agrees_on_sorted_input barsOne (by simp [barsOne]) 0 100 6

end StocksSim
